import Mathlib

/-!
# qisniff: per-connection TCP stream reassembly with overlap diffing

A shallow embedding of `src/qisniff.go` (`newStream`, `stream.write`) together
with the two collaborators it drives: the temporary file that backs a stream
(`os.File`: `Seek`, `Read`, `Write`) and the interval tracker `blocks.Blocks`
(`Overlaps`, `Add`).

Conventions.
* `uint32` values (`tcp.Seq`, `lastSeq`) are natural numbers; the wire bound
  `< 2 ^ 32` is stated wherever a result depends on it.
* `int64` values (`offset`, `a`, `b`) are integers. The only arithmetic on them
  is `offset--`, `offset += math.MaxUint32` and the addition of a `uint32` or a
  slice length, so a 64-bit overflow needs more than `2 ^ 31` segments of one
  stream; `stream.write` does not model it, `stream.writeOn` does.
* `stream.write` runs on a file without limits, whose only failures are a seek
  to a negative offset and a read at the end of the file; `stream.writeOn` takes
  the file operations as parameters, so that each of them can fail.
* A byte is a `Fin 256`.
* `stream.write` has a pointer receiver and returns `error`; the embedding
  returns the updated stream on `nil` and the error otherwise (the only caller,
  `main`, panics on a non-nil error, so no state is observed after a failure).
-/

namespace Qisniff

/-- One byte of payload or of file content. -/
abbrev Byte := Fin 256

/-- The errors `stream.write` can return: the two failures of the backing file
that depend on the arguments of the call (`EINVAL` from `lseek(2)` for a negative
target, `io.EOF` from a read that starts at or after the end of the file), and
the two wrappers `fmt.Errorf("Seek(%v, 0): %v", a, err)` and
`fmt.Errorf("Write(%v): %v", tcp.Payload, err)` of lines 91 and 95. -/
inductive Err where
  | EINVAL : Err
  | EOF : Err
  | SeekErr : Int → Err → Err
  | WriteErr : List Byte → Err → Err
deriving DecidableEq, Repr

/-- The temporary file behind `stream.f`: its content and the current
read/write position. -/
structure File where
  data : List Byte
  pos : Nat
deriving DecidableEq, Repr

/-- The result of `ioutil.TempFile`: a fresh, empty file positioned at 0. -/
def TempFile : Except Err File := .ok { data := [], pos := 0 }

/-- The call `f.Seek(offset, 0)`: an absolute seek. A negative target is refused with
`EINVAL`; any other target (also one past the end of the file) is accepted. -/
def File.Seek (f : File) (offset : Int) : Except Err File :=
  if offset < 0 then .error Err.EINVAL else .ok { f with pos := offset.toNat }

/-- What a read of `n` bytes at position `pos` leaves in a zeroed buffer of
length `n`: the bytes available from `pos` on (at most `n`), then the zeros the
read did not overwrite. -/
def peek (data : List Byte) (pos n : Nat) : List Byte :=
  let got := (data.drop pos).take n
  got ++ List.replicate (n - got.length) 0

/-- The content of a file after `p` has been written at position `pos`: a gap
between the end of the file and `pos` is a hole that reads as zeros. -/
def patch (data : List Byte) (pos : Nat) (p : List Byte) : List Byte :=
  (data ++ List.replicate (pos - data.length) 0).take pos ++ p ++ data.drop (pos + p.length)

/-- The call `f.Read(buf)` for `buf = make([]byte, n)`, returning the buffer after it.
With `n = 0` nothing happens. At or after the end of the file the call fails with
`io.EOF`. Otherwise the call is a short or a full read, see `peek`. -/
def File.Read (f : File) (n : Nat) : Except Err (List Byte × File) :=
  if n = 0 then .ok ([], f)
  else if f.data.length ≤ f.pos then .error Err.EOF
  else .ok (peek f.data f.pos n, { f with pos := f.pos + min n (f.data.length - f.pos) })

/-- The call `f.Write(p)`: the payload replaces the content from the position on, see
`patch`; a write of no bytes changes nothing. -/
def File.Write (f : File) (p : List Byte) : Except Err File :=
  if p = [] then .ok f
  else .ok { data := patch f.data f.pos p, pos := f.pos + p.length }

/-- The byte stored at absolute offset `o`, if the file reaches that far. -/
def File.byteAt (f : File) (o : Int) : Option Byte :=
  if o < 0 then none else f.data[o.toNat]?

/-- The byte a read delivers for absolute offset `o`: the stored byte, and zero
where the file holds nothing. -/
def File.byteOr0 (f : File) (o : Int) : Byte :=
  (f.byteAt o).getD 0

/-- Modelled from the spec: the interval tracker `blocks.Blocks` of package
`github.com/zond/qisniff/blocks`, which is not among the sources. The spec (4.2)
describes it as a sorted sequence of disjoint half-open ranges `[A, B)`. -/
abbrev Blocks := List (Int × Int)

/-- Modelled from the spec: `Blocks.Overlaps(a, b)` of the absent package
`blocks`: true iff some stored range has a non-empty intersection with `[a, b)`;
ranges that only touch do not overlap. -/
def Blocks.Overlaps (bs : Blocks) (a b : Int) : Bool :=
  bs.any (fun r => decide (max r.1 a < min r.2 b))

/-- Modelled from the spec: `Blocks.Add(a, b)` of the absent package `blocks`:
inserts `[a, b)` with a single scan of the sorted sequence, merging it with every
stored range that overlaps it or touches it. -/
def Blocks.Add : Blocks → Int → Int → Blocks
  | [], a, b => [(a, b)]
  | (x, y) :: rest, a, b =>
    if y < a then (x, y) :: Blocks.Add rest a b
    else if b < x then (a, b) :: (x, y) :: rest
    else Blocks.Add rest (min a x) (max b y)

/-- Offset `o` lies inside one of the recorded ranges. -/
def Blocks.covers (bs : Blocks) (o : Int) : Bool :=
  bs.any (fun r => decide (r.1 ≤ o ∧ o < r.2))

/-- The type `diff struct { a []byte; b []byte }`. -/
structure diff where
  a : List Byte
  b : List Byte
deriving DecidableEq, Repr

/-- The type `diffs []diff`. -/
abbrev diffs := List diff

/-- The fields of `layers.TCP` that `stream.write` reads. -/
structure TCP where
  Seq : Nat
  SYN : Bool
  Payload : List Byte
deriving DecidableEq, Repr

/-- The type `stream struct` without the identifier, which `write` never reads. -/
structure stream where
  f : File
  offset : Int
  lastSeq : Nat
  done : Blocks
  diffs : diffs
deriving DecidableEq, Repr

/-- The constant `math.MaxUint32`. -/
def MaxUint32 : Nat := 4294967295

/-- The function `newStream(id, seq)`; the identifier is only stored, so it is left out. -/
def newStream (seq : Nat) : Except Err stream :=
  match TempFile with
  | .error e => .error e
  | .ok f => .ok { f := f, offset := -(seq : Int), lastSeq := seq, done := [], diffs := [] }

/-- Lines 64-70 of `stream.write`: the value of `s.offset` once the SYN decrement
and the wrap bump have been applied. -/
def stream.bias (s : stream) (tcp : TCP) : Int :=
  let o := if tcp.SYN then s.offset - 1 else s.offset
  if s.lastSeq > MaxUint32 - MaxUint32 / 4 ∧ tcp.Seq < MaxUint32 / 4 then o + MaxUint32 else o

/-- Lines 77-88 of `stream.write`: the comparison of an overlapping window with
what the file holds. -/
def stream.check (s : stream) (tcp : TCP) (a b : Int) : Except Err stream :=
  if Blocks.Overlaps s.done a b then
    match s.f.Seek a with
    | .error e => .error e
    | .ok f1 =>
      match f1.Read (b - a).toNat with
      | .error e => .error e
      | .ok (previous, f2) =>
        if previous ≠ tcp.Payload then
          .ok { s with f := f2, diffs := s.diffs ++ [{ a := previous, b := tcp.Payload }] }
        else .ok { s with f := f2 }
  else .ok s

/-- Lines 90-98 of `stream.write`: the unconditional write of the payload and
the update of the written ranges. -/
def stream.store (s : stream) (tcp : TCP) (a b : Int) : Except Err stream :=
  match s.f.Seek a with
  | .error e => .error (Err.SeekErr a e)
  | .ok f1 =>
    match f1.Write tcp.Payload with
    | .error e => .error (Err.WriteErr tcp.Payload e)
    | .ok f2 => .ok { s with f := f2, done := Blocks.Add s.done a b }

/-- The method `func (s *stream) write(tcp *layers.TCP) error`. -/
def stream.write (s : stream) (tcp : TCP) : Except Err stream :=
  let s1 : stream := { s with offset := s.bias tcp }
  let a : Int := s1.offset + (tcp.Seq : Int)
  let b : Int := a + (tcp.Payload.length : Int)
  if b > a then
    match s1.check tcp a b with
    | .error e => .error e
    | .ok s2 => s2.store tcp a b
  else .ok s1

/-- The loop of `main` restricted to the segments of one connection: every
segment goes through `write`, and the first error ends the run. -/
def writeAll (s : stream) : List TCP → Except Err stream
  | [] => .ok s
  | t :: ts =>
    match s.write t with
    | .error e => .error e
    | .ok s1 => writeAll s1 ts

/-- The absolute window `[a, b)` that `write` computes for a segment
(lines 72-73). -/
def stream.window (s : stream) (tcp : TCP) : Int × Int :=
  (s.bias tcp + tcp.Seq, s.bias tcp + tcp.Seq + tcp.Payload.length)

/-- The start of the window and the payload of every segment of a run, in
arrival order. The windows depend on the stream only through `offset` and
`lastSeq`. -/
def history (offset : Int) (lastSeq : Nat) : List TCP → List (Int × List Byte)
  | [] => []
  | t :: ts =>
    let s : stream := { f := ⟨[], 0⟩, offset := offset, lastSeq := lastSeq, done := [], diffs := [] }
    (s.bias t + t.Seq, t.Payload) :: history (s.bias t) lastSeq ts

/-- The byte that the most recent entry of a log whose window contains `o`
supplied for `o` (the log is in arrival order, so later entries win). -/
def lastSupplied : List (Int × List Byte) → Int → Option Byte
  | [], _ => none
  | (a, p) :: rest, o =>
    match lastSupplied rest o with
    | some v => some v
    | none => if a ≤ o ∧ o < a + p.length then p[(o - a).toNat]? else none

/-- Two log entries have windows without a common offset (touching windows and
empty windows qualify). -/
def apart (u v : Int × List Byte) : Prop :=
  min (u.1 + u.2.length) (v.1 + v.2.length) ≤ max u.1 v.1

instance apart.instDecidable (u v : Int × List Byte) : Decidable (apart u v) :=
  inferInstanceAs (Decidable (min (u.1 + u.2.length) (v.1 + v.2.length) ≤ max u.1 v.1))

/-- Reading the window `[a, b)` back the way lines 78-84 do: nothing for an empty
window, otherwise a seek to `a` followed by a read into a zeroed buffer of
`b - a` bytes. -/
def File.readWindow (f : File) (a b : Int) : Except Err (List Byte) :=
  if b > a then
    match f.Seek a with
    | .error e => .error e
    | .ok f1 =>
      match f1.Read (b - a).toNat with
      | .error e => .error e
      | .ok (buf, _) => .ok buf
  else .ok []

/-! ### `write` over a backing file that can fail

The definitions above fix the backing file to one that refuses a negative seek
target and a read at the end of the file and accepts everything else, and they
compute offsets in unbounded integers. The definitions below embed the same
method with the three file operations as parameters, so that every one of them
can fail, and with the `int64` arithmetic of the source. -/

/-- The failures of an operation on the backing file: `EINVAL` (a seek target
that is negative or beyond the largest offset of the file system), `io.EOF`,
`EFBIG` and `ENOSPC` (a write that the file system cannot take) and `EIO`. -/
inductive Fault where
  | EINVAL : Fault
  | EOF : Fault
  | EFBIG : Fault
  | ENOSPC : Fault
  | EIO : Fault
deriving DecidableEq, Repr

/-- The values `write` returns as `error`: the failure of the seek or of the
read of lines 79-84 as it is, the failure of the seek of line 90 inside
`fmt.Errorf("Seek(%v, 0): %v", a, err)`, and the failure of the write of line 94
inside `fmt.Errorf("Write(%v): %v", tcp.Payload, err)`. -/
inductive WriteError where
  | raw : Fault → WriteError
  | seek : Int → Fault → WriteError
  | write : List Byte → Fault → WriteError
deriving DecidableEq, Repr

/-- The three operations of `os.File` that `write` calls: `Seek(offset, 0)`,
`Read(buf)` for a zeroed buffer of the given length (the result is the buffer
after the call) and `Write(p)`. Each returns the file after the call or a
failure. -/
structure Store where
  Seek : File → Int → Except Fault File
  Read : File → Nat → Except Fault (List Byte × File)
  Write : File → List Byte → Except Fault File

/-- A file on a file system whose largest offset is `limit`: a seek is refused
with `EINVAL` when the target is negative or beyond `limit`, a read fails with
`io.EOF` at or after the end of the file and is short or full otherwise, and a
write that would end beyond `limit` fails with `EFBIG`. -/
def osFile (limit : Nat) : Store where
  Seek f offset :=
    if offset < 0 ∨ (limit : Int) < offset then .error Fault.EINVAL
    else .ok { f with pos := offset.toNat }
  Read f n :=
    if n = 0 then .ok ([], f)
    else if f.data.length ≤ f.pos then .error Fault.EOF
    else .ok (peek f.data f.pos n, { f with pos := f.pos + min n (f.data.length - f.pos) })
  Write f p :=
    if p = [] then .ok f
    else if limit < f.pos + p.length then .error Fault.EFBIG
    else .ok { data := patch f.data f.pos p, pos := f.pos + p.length }

/-- The value of an integer expression in `int64`: its two's-complement
reduction to `[-2 ^ 63, 2 ^ 63)`. -/
def wrap64 (x : Int) : Int :=
  (x + 9223372036854775808) % 18446744073709551616 - 9223372036854775808

/-- The function `newStream(id, seq)` with the result of `ioutil.TempFile` as a
parameter. -/
def newStreamOn (tmp : Except Fault File) (seq : Nat) : Except Fault stream :=
  match tmp with
  | .error e => .error e
  | .ok f =>
    .ok { f := f, offset := wrap64 (-(seq : Int)), lastSeq := seq, done := [], diffs := [] }

/-- Lines 64-70 of `stream.write` in `int64`: the value of `s.offset` once the
SYN decrement and the wrap bump have been applied. -/
def stream.bias64 (s : stream) (tcp : TCP) : Int :=
  let o := if tcp.SYN then wrap64 (s.offset - 1) else s.offset
  if s.lastSeq > MaxUint32 - MaxUint32 / 4 ∧ tcp.Seq < MaxUint32 / 4 then
    wrap64 (o + MaxUint32)
  else o

/-- Lines 72-73 of `stream.write` in `int64`: the window `[a, b)`. -/
def stream.window64 (s : stream) (tcp : TCP) : Int × Int :=
  (wrap64 (s.bias64 tcp + tcp.Seq),
   wrap64 (wrap64 (s.bias64 tcp + tcp.Seq) + tcp.Payload.length))

/-- Lines 77-88 of `stream.write` over a store: the comparison of an overlapping
window with what the file holds. -/
def stream.checkOn (fs : Store) (s : stream) (tcp : TCP) (a b : Int) :
    Except WriteError stream :=
  if Blocks.Overlaps s.done a b then
    match fs.Seek s.f a with
    | .error e => .error (WriteError.raw e)
    | .ok f1 =>
      match fs.Read f1 (wrap64 (b - a)).toNat with
      | .error e => .error (WriteError.raw e)
      | .ok (previous, f2) =>
        if previous ≠ tcp.Payload then
          .ok { s with f := f2, diffs := s.diffs ++ [{ a := previous, b := tcp.Payload }] }
        else .ok { s with f := f2 }
  else .ok s

/-- Lines 90-98 of `stream.write` over a store: the unconditional write of the
payload and the update of the written ranges. -/
def stream.storeOn (fs : Store) (s : stream) (tcp : TCP) (a b : Int) :
    Except WriteError stream :=
  match fs.Seek s.f a with
  | .error e => .error (WriteError.seek a e)
  | .ok f1 =>
    match fs.Write f1 tcp.Payload with
    | .error e => .error (WriteError.write tcp.Payload e)
    | .ok f2 => .ok { s with f := f2, done := Blocks.Add s.done a b }

/-- The method `func (s *stream) write(tcp *layers.TCP) error` over a store and
in `int64`. -/
def stream.writeOn (fs : Store) (s : stream) (tcp : TCP) : Except WriteError stream :=
  let s1 : stream := { s with offset := s.bias64 tcp }
  let a : Int := (s.window64 tcp).1
  let b : Int := (s.window64 tcp).2
  if b > a then
    match s1.checkOn fs tcp a b with
    | .error e => .error e
    | .ok s2 => s2.storeOn fs tcp a b
  else .ok s1

/-- The loop of `main` restricted to the segments of one connection, over a
store. -/
def writeAllOn (fs : Store) (s : stream) : List TCP → Except WriteError stream
  | [] => .ok s
  | t :: ts =>
    match s.writeOn fs t with
    | .error e => .error e
    | .ok s1 => writeAllOn fs s1 ts

/-! ### Closed forms of `newStream` and `write` -/

theorem newStream_ok (seq : Nat) :
    newStream seq = .ok { f := ⟨[], 0⟩, offset := -(seq : Int), lastSeq := seq, done := [], diffs := [] } :=
  rfl

/-- A closed form of `write`: nothing but the new `offset` for an empty payload,
the failure of the seek for a negative window start, the failure of the read for
an overlapping window that starts at or after the end of the file, and otherwise
the new file, ranges and diff log as functions of the state before. -/
theorem write_spec (s : stream) (tcp : TCP) :
    s.write tcp =
      if tcp.Payload = [] then .ok { s with offset := s.bias tcp }
      else if s.bias tcp + tcp.Seq < 0 then
        .error (if Blocks.Overlaps s.done (s.bias tcp + tcp.Seq)
                    (s.bias tcp + tcp.Seq + tcp.Payload.length)
                then Err.EINVAL else Err.SeekErr (s.bias tcp + tcp.Seq) Err.EINVAL)
      else if Blocks.Overlaps s.done (s.bias tcp + tcp.Seq)
                  (s.bias tcp + tcp.Seq + tcp.Payload.length) = true
                ∧ s.f.data.length ≤ (s.bias tcp + tcp.Seq).toNat then .error Err.EOF
      else .ok
        { f := ⟨patch s.f.data (s.bias tcp + tcp.Seq).toNat tcp.Payload,
                (s.bias tcp + tcp.Seq).toNat + tcp.Payload.length⟩,
          offset := s.bias tcp,
          lastSeq := s.lastSeq,
          done := Blocks.Add s.done (s.bias tcp + tcp.Seq)
                    (s.bias tcp + tcp.Seq + tcp.Payload.length),
          diffs :=
            if Blocks.Overlaps s.done (s.bias tcp + tcp.Seq)
                  (s.bias tcp + tcp.Seq + tcp.Payload.length) = true
                ∧ peek s.f.data (s.bias tcp + tcp.Seq).toNat tcp.Payload.length ≠ tcp.Payload
            then s.diffs ++ [⟨peek s.f.data (s.bias tcp + tcp.Seq).toNat tcp.Payload.length,
                              tcp.Payload⟩]
            else s.diffs } := by
  by_cases hp : tcp.Payload = []
  · simp [stream.write, hp]
  · have hl : 0 < tcp.Payload.length := List.length_pos.mpr hp
    have hl2 : tcp.Payload.length ≠ 0 := by omega
    by_cases ha : s.bias tcp + tcp.Seq < 0
    · by_cases ho : Blocks.Overlaps s.done (s.bias tcp + tcp.Seq)
          (s.bias tcp + tcp.Seq + tcp.Payload.length) = true
      · simp [stream.write, stream.check, stream.store, File.Seek, hp, hl, ha, ho]
      · simp [stream.write, stream.check, stream.store, File.Seek, hp, hl, ha, ho]
    · by_cases ho : Blocks.Overlaps s.done (s.bias tcp + tcp.Seq)
          (s.bias tcp + tcp.Seq + tcp.Payload.length) = true
      · by_cases he : s.f.data.length ≤ (s.bias tcp + tcp.Seq).toNat
        · simp [stream.write, stream.check, stream.store, File.Seek, File.Read, hp, hl, hl2, ha, ho, he]
        · by_cases hd : peek s.f.data (s.bias tcp + tcp.Seq).toNat tcp.Payload.length = tcp.Payload
          · simp [stream.write, stream.check, stream.store, File.Seek, File.Read, File.Write,
              hp, hl, hl2, ha, ho, he, hd]
          · simp [stream.write, stream.check, stream.store, File.Seek, File.Read, File.Write,
              hp, hl, hl2, ha, ho, he, hd]
      · simp [stream.write, stream.check, stream.store, File.Seek, File.Write, hp, hl, ha, ho]

/-! ### The backing file, byte by byte -/

theorem peek_length (data : List Byte) (pos n : Nat) : (peek data pos n).length = n := by
  simp only [peek, List.length_append, List.length_replicate, List.length_take, List.length_drop]
  omega

theorem peek_getElem? (data : List Byte) (pos n i : Nat) (hi : i < n) :
    (peek data pos n)[i]? = some ((data[pos + i]?).getD 0) := by
  simp only [peek]
  by_cases h : pos + i < data.length
  · rw [List.getElem?_append_left (by simp [List.length_take, List.length_drop]; omega)]
    rw [List.getElem?_take_of_lt hi, List.getElem?_drop]
    rw [List.getElem?_eq_getElem h]
    simp
  · rw [List.getElem?_append_right (by simp [List.length_take, List.length_drop]; omega)]
    rw [List.getElem?_eq_none (by omega : data.length ≤ pos + i)]
    rw [List.getElem?_replicate_of_lt (by simp [List.length_take, List.length_drop]; omega)]
    simp

theorem patch_getElem?_in (data : List Byte) (pos : Nat) (p : List Byte) (i : Nat)
    (hi : i < p.length) : (patch data pos p)[pos + i]? = p[i]? := by
  have hlen : ((data ++ List.replicate (pos - data.length) 0).take pos).length = pos := by
    simp only [List.length_take, List.length_append, List.length_replicate]
    omega
  simp only [patch, List.append_assoc]
  rw [List.getElem?_append_right (by omega), hlen]
  rw [List.getElem?_append_left (by omega)]
  congr 1
  omega

theorem patch_getElem?_keep (data : List Byte) (pos : Nat) (p : List Byte) (j : Nat) (v : Byte)
    (hj : j < pos ∨ pos + p.length ≤ j) (hv : data[j]? = some v) :
    (patch data pos p)[j]? = some v := by
  have hlen : ((data ++ List.replicate (pos - data.length) 0).take pos).length = pos := by
    simp only [List.length_take, List.length_append, List.length_replicate]
    omega
  have hjl : j < data.length := by
    by_contra h
    rw [List.getElem?_eq_none (by omega)] at hv
    cases hv
  simp only [patch, List.append_assoc]
  rcases hj with hj | hj
  · rw [List.getElem?_append_left (by omega)]
    rw [List.getElem?_take_of_lt hj, List.getElem?_append_left hjl, hv]
  · rw [List.getElem?_append_right (by omega), hlen]
    rw [List.getElem?_append_right (by omega), List.getElem?_drop, ← hv]
    congr 1
    omega

/-! ### The interval tracker -/

theorem Blocks.covers_cons (r : Int × Int) (bs : Blocks) (o : Int) :
    Blocks.covers (r :: bs) o = true ↔ (r.1 ≤ o ∧ o < r.2) ∨ Blocks.covers bs o = true := by
  simp [Blocks.covers]

theorem Blocks.covers_Add (bs : Blocks) (a b o : Int) :
    Blocks.covers (Blocks.Add bs a b) o = true ↔ Blocks.covers bs o = true ∨ (a ≤ o ∧ o < b) := by
  induction bs generalizing a b with
  | nil => simp [Blocks.Add, Blocks.covers]
  | cons r rest ih =>
    obtain ⟨x, y⟩ := r
    simp only [Blocks.Add]
    split
    · rw [Blocks.covers_cons, ih, Blocks.covers_cons]
      tauto
    · split
      · simp only [Blocks.covers_cons]
        tauto
      · rw [ih, Blocks.covers_cons]
        simp only
        constructor
        · rintro (h | ⟨h1, h2⟩)
          · tauto
          · rcases le_or_lt a o with ha | ha
            · rcases lt_or_le o b with hb | hb
              · exact Or.inr ⟨ha, hb⟩
              · have : o < y := by
                  rcases lt_max_iff.mp h2 with h | h
                  · omega
                  · exact h
                exact Or.inl (Or.inl ⟨by omega, this⟩)
            · have hx : x ≤ o := by
                rcases min_le_iff.mp h1 with h | h
                · omega
                · exact h
              exact Or.inl (Or.inl ⟨hx, by omega⟩)
        · rintro ((⟨h1, h2⟩ | h) | ⟨h1, h2⟩)
          · exact Or.inr ⟨min_le_iff.mpr (Or.inr h1), lt_max_iff.mpr (Or.inr h2)⟩
          · exact Or.inl h
          · exact Or.inr ⟨min_le_iff.mpr (Or.inl h1), lt_max_iff.mpr (Or.inl h2)⟩

theorem Blocks.Overlaps_iff (bs : Blocks) (a b : Int) :
    Blocks.Overlaps bs a b = true ↔ ∃ o, a ≤ o ∧ o < b ∧ Blocks.covers bs o = true := by
  simp only [Blocks.Overlaps, Blocks.covers, List.any_eq_true, decide_eq_true_eq]
  constructor
  · rintro ⟨r, hr, h⟩
    refine ⟨max r.1 a, le_max_right _ _, ?_, r, hr, le_max_left _ _, ?_⟩
    · exact lt_of_lt_of_le h (min_le_right _ _)
    · exact lt_of_lt_of_le h (min_le_left _ _)
  · rintro ⟨o, h1, h2, r, hr, h3, h4⟩
    exact ⟨r, hr, lt_of_le_of_lt (max_le h3 h1) (lt_min h4 h2)⟩

/-! ### One call of `write` -/

theorem write_ok_cases (s s1 : stream) (tcp : TCP) (h : s.write tcp = .ok s1) :
    (tcp.Payload = [] ∧ s1 = { s with offset := s.bias tcp }) ∨
    (tcp.Payload ≠ [] ∧ 0 ≤ s.bias tcp + tcp.Seq ∧
      (Blocks.Overlaps s.done (s.bias tcp + tcp.Seq)
          (s.bias tcp + tcp.Seq + tcp.Payload.length) = true →
        (s.bias tcp + tcp.Seq).toNat < s.f.data.length) ∧
      s1.f.data = patch s.f.data (s.bias tcp + tcp.Seq).toNat tcp.Payload ∧
      s1.offset = s.bias tcp ∧ s1.lastSeq = s.lastSeq ∧
      s1.done = Blocks.Add s.done (s.bias tcp + tcp.Seq)
                  (s.bias tcp + tcp.Seq + tcp.Payload.length) ∧
      s1.diffs =
        if Blocks.Overlaps s.done (s.bias tcp + tcp.Seq)
              (s.bias tcp + tcp.Seq + tcp.Payload.length) = true
            ∧ peek s.f.data (s.bias tcp + tcp.Seq).toNat tcp.Payload.length ≠ tcp.Payload
        then s.diffs ++ [⟨peek s.f.data (s.bias tcp + tcp.Seq).toNat tcp.Payload.length,
                          tcp.Payload⟩]
        else s.diffs) := by
  rw [write_spec] at h
  split at h
  · left
    injection h with h
    exact ⟨by assumption, h.symm⟩
  · right
    split at h
    · cases h
    · split at h
      · cases h
      · injection h with h
        subst h
        refine ⟨by assumption, by omega, ?_, rfl, rfl, rfl, rfl, rfl⟩
        intro ho
        by_contra hlt
        rename_i hne
        exact hne ⟨ho, by omega⟩

theorem write_offset (s s1 : stream) (tcp : TCP) (h : s.write tcp = .ok s1) :
    s1.offset = s.bias tcp ∧ s1.lastSeq = s.lastSeq := by
  rcases write_ok_cases s s1 tcp h with ⟨_, h1⟩ | ⟨_, _, _, _, h1, h2, _⟩
  · subst h1; exact ⟨rfl, rfl⟩
  · exact ⟨h1, h2⟩

theorem write_covers (s s1 : stream) (tcp : TCP) (h : s.write tcp = .ok s1) (o : Int) :
    Blocks.covers s1.done o = true ↔
      Blocks.covers s.done o = true ∨
        (s.bias tcp + tcp.Seq ≤ o ∧ o < s.bias tcp + tcp.Seq + tcp.Payload.length) := by
  rcases write_ok_cases s s1 tcp h with ⟨hp, h1⟩ | ⟨_, _, _, _, _, _, h1, _⟩
  · subst h1
    simp only [hp, List.length_nil, Nat.cast_zero, add_zero]
    constructor
    · exact Or.inl
    · rintro (h | ⟨h1, h2⟩)
      · exact h
      · omega
  · rw [h1, Blocks.covers_Add]

theorem write_byte_in (s s1 : stream) (tcp : TCP) (h : s.write tcp = .ok s1) (o : Int)
    (h1 : s.bias tcp + tcp.Seq ≤ o) (h2 : o < s.bias tcp + tcp.Seq + tcp.Payload.length) :
    s1.f.byteAt o = tcp.Payload[(o - (s.bias tcp + tcp.Seq)).toNat]? := by
  rcases write_ok_cases s s1 tcp h with ⟨hp, _⟩ | ⟨_, h0, _, hd, _⟩
  · simp only [hp, List.length_nil, Nat.cast_zero, add_zero] at h2
    omega
  · have ho : ¬ o < 0 := by omega
    simp only [File.byteAt, ho, if_false, hd]
    have : o.toNat = (s.bias tcp + tcp.Seq).toNat + (o - (s.bias tcp + tcp.Seq)).toNat := by omega
    rw [this]
    exact patch_getElem?_in _ _ _ _ (by omega)

theorem write_byte_keep (s s1 : stream) (tcp : TCP) (h : s.write tcp = .ok s1) (o : Int) (v : Byte)
    (h1 : ¬ (s.bias tcp + tcp.Seq ≤ o ∧ o < s.bias tcp + tcp.Seq + tcp.Payload.length))
    (hv : s.f.byteAt o = some v) : s1.f.byteAt o = some v := by
  rcases write_ok_cases s s1 tcp h with ⟨_, h2⟩ | ⟨_, h0, _, hd, _⟩
  · subst h2; exact hv
  · simp only [File.byteAt] at hv ⊢
    split at hv
    · cases hv
    · rename_i ho
      simp only [ho, if_false, hd]
      apply patch_getElem?_keep _ _ _ _ _ _ hv
      omega

/-! ### Runs of `write` -/

theorem writeAll_cons (s fin : stream) (t : TCP) (ts : List TCP)
    (h : writeAll s (t :: ts) = .ok fin) :
    ∃ s1, s.write t = .ok s1 ∧ writeAll s1 ts = .ok fin := by
  simp only [writeAll] at h
  split at h
  · cases h
  · rename_i s1 h1
    exact ⟨s1, h1, h⟩

theorem history_cons (s s1 : stream) (t : TCP) (ts : List TCP) (h : s.write t = .ok s1) :
    history s.offset s.lastSeq (t :: ts) =
      (s.bias t + t.Seq, t.Payload) :: history s1.offset s1.lastSeq ts := by
  obtain ⟨h1, h2⟩ := write_offset s s1 t h
  rw [h1, h2]
  rfl

theorem lastSupplied_mem (log : List (Int × List Byte)) (o : Int) (v : Byte)
    (h : lastSupplied log o = some v) :
    ∃ w ∈ log, w.1 ≤ o ∧ o < w.1 + w.2.length := by
  induction log generalizing v with
  | nil => simp [lastSupplied] at h
  | cons u rest ih =>
    obtain ⟨a, p⟩ := u
    simp only [lastSupplied] at h
    split at h
    · rename_i x hx
      obtain ⟨w, hw, hw2⟩ := ih x hx
      exact ⟨w, List.mem_cons_of_mem _ hw, hw2⟩
    · split at h
      · rename_i hin
        exact ⟨(a, p), List.mem_cons_self _ _, hin⟩
      · cases h

theorem lastSupplied_cons_none (a : Int) (p : List Byte) (rest : List (Int × List Byte)) (o : Int)
    (h : lastSupplied ((a, p) :: rest) o = none) :
    lastSupplied rest o = none ∧ ¬ (a ≤ o ∧ o < a + p.length) := by
  simp only [lastSupplied] at h
  split at h
  · cases h
  · rename_i hr
    refine ⟨hr, ?_⟩
    intro hin
    rw [if_pos hin] at h
    have hlt : (o - a).toNat < p.length := by omega
    rw [List.getElem?_eq_getElem hlt] at h
    cases h

/-- What a successful run leaves in the file and in the written ranges, offset by
offset, in terms of the log of its windows. -/
theorem run_bytes (segs : List TCP) : ∀ (s fin : stream), writeAll s segs = .ok fin → ∀ o : Int,
    (∀ v, lastSupplied (history s.offset s.lastSeq segs) o = some v → fin.f.byteAt o = some v) ∧
    (lastSupplied (history s.offset s.lastSeq segs) o = none →
      ∀ v, s.f.byteAt o = some v → fin.f.byteAt o = some v) ∧
    (Blocks.covers fin.done o = true ↔
      Blocks.covers s.done o = true ∨
        (lastSupplied (history s.offset s.lastSeq segs) o).isSome = true) := by
  induction segs with
  | nil =>
    intro s fin h o
    simp only [writeAll] at h
    injection h with h
    subst h
    simp [history, lastSupplied]
  | cons t ts ih =>
    intro s fin h o
    obtain ⟨s1, hw, hrest⟩ := writeAll_cons s fin t ts h
    obtain ⟨ih1, ih2, ih3⟩ := ih s1 fin hrest o
    rw [history_cons s s1 t ts hw]
    refine ⟨?_, ?_, ?_⟩
    · intro v hv
      cases hr : lastSupplied (history s1.offset s1.lastSeq ts) o with
      | some x =>
        simp only [lastSupplied, hr] at hv
        injection hv with hv
        subst hv
        exact ih1 x hr
      | none =>
        simp only [lastSupplied, hr] at hv
        split at hv
        · rename_i hin
          apply ih2 hr
          rw [write_byte_in s s1 t hw o hin.1 hin.2]
          exact hv
        · cases hv
    · intro hn v hv
      obtain ⟨hr, hout⟩ := lastSupplied_cons_none _ _ _ _ hn
      exact ih2 hr v (write_byte_keep s s1 t hw o v hout hv)
    · rw [ih3, write_covers s s1 t hw o]
      cases hr : lastSupplied (history s1.offset s1.lastSeq ts) o with
      | some x => simp [lastSupplied, hr]
      | none =>
        simp only [lastSupplied, hr, Option.isSome_none, Bool.false_eq_true, or_false]
        by_cases hin : s.bias t + t.Seq ≤ o ∧ o < s.bias t + t.Seq + t.Payload.length
        · have hlt : (o - (s.bias t + t.Seq)).toNat < t.Payload.length := by omega
          simp [hin, List.getElem?_eq_getElem hlt]
        · simp [hin]

theorem lastSupplied_of_apart (log : List (Int × List Byte)) (hap : log.Pairwise apart)
    (w : Int × List Byte) (hw : w ∈ log) (o : Int) (h1 : w.1 ≤ o) (h2 : o < w.1 + w.2.length) :
    lastSupplied log o = w.2[(o - w.1).toNat]? := by
  obtain ⟨wa, wp⟩ := w
  simp only at h1 h2 ⊢
  induction log with
  | nil => cases hw
  | cons u rest ih =>
    obtain ⟨a, p⟩ := u
    rw [List.pairwise_cons] at hap
    obtain ⟨hu, hrest⟩ := hap
    have hlt : (o - wa).toNat < wp.length := by omega
    rcases List.mem_cons.mp hw with heq | hmem
    · injection heq with e1 e2
      subst e1 e2
      have hnone : lastSupplied rest o = none := by
        cases hr : lastSupplied rest o with
        | none => rfl
        | some x =>
          obtain ⟨v, hv, hv1, hv2⟩ := lastSupplied_mem rest o x hr
          have := hu v hv
          simp only [apart] at this
          rcases min_le_iff.mp this with h | h
          · rcases le_max_iff.mp h with h | h <;> omega
          · rcases le_max_iff.mp h with h | h <;> omega
      simp only [lastSupplied, hnone]
      rw [if_pos ⟨h1, h2⟩]
    · have := ih hrest hmem
      simp only [lastSupplied, this, List.getElem?_eq_getElem hlt]

/-- A run whose windows avoid each other and everything written before it
records no diff. -/
theorem run_no_diff (segs : List TCP) : ∀ (s fin : stream), writeAll s segs = .ok fin →
    (history s.offset s.lastSeq segs).Pairwise apart →
    (∀ w ∈ history s.offset s.lastSeq segs, ∀ o : Int, w.1 ≤ o → o < w.1 + w.2.length →
      Blocks.covers s.done o = false) →
    fin.diffs = s.diffs := by
  induction segs with
  | nil =>
    intro s fin h _ _
    simp only [writeAll] at h
    injection h with h
    subst h
    rfl
  | cons t ts ih =>
    intro s fin h hap hfree
    obtain ⟨s1, hw, hrest⟩ := writeAll_cons s fin t ts h
    rw [history_cons s s1 t ts hw] at hap hfree
    rw [List.pairwise_cons] at hap
    obtain ⟨hhead, htail⟩ := hap
    have hno : Blocks.Overlaps s.done (s.bias t + t.Seq)
        (s.bias t + t.Seq + t.Payload.length) ≠ true := by
      intro hc
      rw [Blocks.Overlaps_iff] at hc
      obtain ⟨o, ho1, ho2, ho3⟩ := hc
      have := hfree _ (List.mem_cons_self _ _) o ho1 ho2
      rw [this] at ho3
      cases ho3
    have hd1 : s1.diffs = s.diffs := by
      rcases write_ok_cases s s1 t hw with ⟨_, h1⟩ | ⟨_, _, _, _, _, _, _, h1⟩
      · subst h1; rfl
      · rw [h1, if_neg (fun hc => hno hc.1)]
    rw [← hd1]
    apply ih s1 fin hrest htail
    intro w hwm o ho1 ho2
    cases hc : Blocks.covers s1.done o with
    | false => rfl
    | true =>
      exfalso
      rcases (write_covers s s1 t hw o).mp hc with hc1 | ⟨hc1, hc2⟩
      · have := hfree w (List.mem_cons_of_mem _ hwm) o ho1 ho2
        rw [this] at hc1
        cases hc1
      · have := hhead w hwm
        simp only [apart] at this
        rcases min_le_iff.mp this with h | h
        · rcases le_max_iff.mp h with h | h <;> omega
        · rcases le_max_iff.mp h with h | h <;> omega

theorem history_take (segs : List TCP) : ∀ (k : Nat) (offset : Int) (lastSeq : Nat),
    history offset lastSeq (segs.take k) = (history offset lastSeq segs).take k := by
  induction segs with
  | nil => intro k offset lastSeq; simp [history]
  | cons t ts ih =>
    intro k offset lastSeq
    cases k with
    | zero => simp [history]
    | succ k => simp [history, ih]

theorem writeAll_take (segs : List TCP) : ∀ (s fin : stream), writeAll s segs = .ok fin →
    ∀ k : Nat, ∃ mid, writeAll s (segs.take k) = .ok mid := by
  induction segs with
  | nil => intro s fin _ k; exact ⟨s, by simp [writeAll]⟩
  | cons t ts ih =>
    intro s fin h k
    obtain ⟨s1, hw, hrest⟩ := writeAll_cons s fin t ts h
    cases k with
    | zero => exact ⟨s, by simp [writeAll]⟩
    | succ k =>
      obtain ⟨mid, hmid⟩ := ih s1 fin hrest k
      exact ⟨mid, by simp [writeAll, hw, hmid]⟩

/-- Reading a window back gives `p` as soon as the file holds `p` there. -/
theorem readWindow_of_bytes (f : File) (a : Int) (p : List Byte)
    (h : ∀ o : Int, a ≤ o → o < a + p.length → f.byteAt o = p[(o - a).toNat]?) :
    f.readWindow a (a + p.length) = .ok p := by
  by_cases hp : p = []
  · subst hp
    simp [File.readWindow]
  · have hl : 0 < p.length := List.length_pos.mpr hp
    have h0 := h a (le_refl _) (by omega)
    simp only [sub_self, Int.toNat_zero, List.getElem?_eq_getElem hl] at h0
    simp only [File.byteAt] at h0
    split at h0
    · cases h0
    · rename_i ha
      have hlen : a.toNat < f.data.length := by
        by_contra hc
        rw [List.getElem?_eq_none (by omega)] at h0
        cases h0
      have hb : a + (p.length : Int) > a := by omega
      have hn : (a + (p.length : Int) - a).toNat = p.length := by omega
      have hn0 : p.length ≠ 0 := by omega
      have hle : ¬ f.data.length ≤ a.toNat := by omega
      simp only [File.readWindow, hb, if_true, File.Seek, ha, if_false, File.Read, hn, hn0, hle]
      congr 1
      apply List.ext_getElem?
      intro i
      by_cases hi : i < p.length
      · rw [peek_getElem? _ _ _ _ hi]
        have := h (a + i) (by omega) (by omega)
        have ho : ¬ (a + (i : Int) < 0) := by omega
        simp only [File.byteAt, ho, if_false] at this
        have e1 : (a + (i : Int)).toNat = a.toNat + i := by omega
        have e2 : (a + (i : Int) - a).toNat = i := by omega
        rw [e1, e2] at this
        rw [this, List.getElem?_eq_getElem hi]
        rfl
      · rw [List.getElem?_eq_none (by rw [peek_length]; omega),
          List.getElem?_eq_none (by omega)]

/-! ### Two writes to the same range -/

theorem bias_fresh (f : File) (d : Blocks) (ds : diffs) (s : Nat) (p : List Byte) :
    stream.bias { f := f, offset := -(s : Int), lastSeq := s, done := d, diffs := ds }
      ⟨s, false, p⟩ = -(s : Int) := by
  simp only [stream.bias, MaxUint32]
  split
  · omega
  · simp

theorem peek_full (p : List Byte) : peek p 0 p.length = p := by
  simp [peek]

theorem patch_over (p q : List Byte) (h : p.length = q.length) : patch p 0 q = q := by
  simp [patch, ← h]

/-- C1: on a stream made by `newStream s`, two non-SYN segments that both carry
sequence number `s` and non-empty payloads `p`, `q` of equal length are both
written without error to the range `[0, len p)`; the first records no diff, and
the second records the single diff `(p, q)` when `p` and `q` differ and none when
they are equal. The file then holds `q`. -/
theorem C1_same_range_diff_iff_differs (s : Nat) (p q : List Byte)
    (hp : p ≠ []) (hlen : p.length = q.length) :
    ∃ st s1 s2, newStream s = .ok st ∧ st.write ⟨s, false, p⟩ = .ok s1 ∧
      s1.write ⟨s, false, q⟩ = .ok s2 ∧
      st.window ⟨s, false, p⟩ = (0, (p.length : Int)) ∧
      s1.window ⟨s, false, q⟩ = (0, (p.length : Int)) ∧
      s1.diffs = [] ∧
      (p ≠ q → s2.diffs = [⟨p, q⟩]) ∧ (p = q → s2.diffs = []) ∧
      (s2.diffs ≠ s1.diffs ↔ p ≠ q) ∧ s2.f.data = q := by
  have hpl : 0 < p.length := List.length_pos.mpr hp
  have hq : q ≠ [] := by
    intro h
    subst h
    simp only [List.length_nil] at hlen
    omega
  have hql : 0 < q.length := List.length_pos.mpr hq
  have hov : Blocks.Overlaps (Blocks.Add [] 0 (p.length : Int)) 0 (q.length : Int) = true := by
    simp only [Blocks.Add, Blocks.Overlaps, List.any_cons, List.any_nil, Bool.or_false,
      decide_eq_true_eq]
    rw [← hlen]
    simp only [max_self, min_self]
    omega
  have hpk : peek p 0 q.length = p := by rw [← hlen]; exact peek_full p
  have hw1 : stream.write (stream.mk ⟨[], 0⟩ (-(s : Int)) s [] []) ⟨s, false, p⟩ =
      .ok (stream.mk ⟨p, p.length⟩ (-(s : Int)) s (Blocks.Add [] 0 (p.length : Int)) []) := by
    rw [write_spec]
    simp [bias_fresh, hp, Blocks.Overlaps, patch]
  have hw2 : stream.write
        (stream.mk ⟨p, p.length⟩ (-(s : Int)) s (Blocks.Add [] 0 (p.length : Int)) [])
        ⟨s, false, q⟩ =
      .ok (stream.mk ⟨q, q.length⟩ (-(s : Int)) s
            (Blocks.Add (Blocks.Add [] 0 (p.length : Int)) 0 (q.length : Int))
            (if p ≠ q then [⟨p, q⟩] else [])) := by
    rw [write_spec]
    simp [bias_fresh, hq, hp, hov, hpk, patch_over p q hlen, hpl]
  refine ⟨_, _, _, newStream_ok s, hw1, hw2, ?_, ?_, rfl, ?_, ?_, ?_, rfl⟩
  · simp [stream.window, bias_fresh]
  · simp [stream.window, bias_fresh, hlen]
  · intro h; simp [h]
  · intro h; simp [h]
  · by_cases h : p = q <;> simp [h]

/-- C1, at the scenario of the specification: `"hello"` then `"howdy"`, both
at sequence number 2000. -/
theorem C1_same_range_diff_iff_differs_witness :
    ∃ st s1 s2, newStream 2000 = .ok st ∧
      st.write ⟨2000, false, [104, 101, 108, 108, 111]⟩ = .ok s1 ∧
      s1.write ⟨2000, false, [104, 111, 119, 100, 121]⟩ = .ok s2 ∧
      st.window ⟨2000, false, [104, 101, 108, 108, 111]⟩ = (0, 5) ∧
      s1.window ⟨2000, false, [104, 111, 119, 100, 121]⟩ = (0, 5) ∧
      s1.diffs = [] ∧
      (([104, 101, 108, 108, 111] : List Byte) ≠ [104, 111, 119, 100, 121] →
        s2.diffs = [⟨[104, 101, 108, 108, 111], [104, 111, 119, 100, 121]⟩]) ∧
      (([104, 101, 108, 108, 111] : List Byte) = [104, 111, 119, 100, 121] → s2.diffs = []) ∧
      (s2.diffs ≠ s1.diffs ↔ ([104, 101, 108, 108, 111] : List Byte) ≠ [104, 111, 119, 100, 121]) ∧
      s2.f.data = [104, 111, 119, 100, 121] :=
  C1_same_range_diff_iff_differs 2000 [104, 101, 108, 108, 111] [104, 111, 119, 100, 121]
    (by decide) (by decide)

/-! ### Last writer wins -/

/-- C2: after any run of segments that `write` processed without error on a
stream made by `newStream`, every absolute offset `o` inside a recorded written
range was supplied by some segment of the run, and the byte the file holds at
`o` is the byte that the most recent segment whose window contains `o` supplied
for it. -/
theorem C2_last_writer_wins (s0 : Nat) (segs : List TCP) (st fin : stream)
    (hnew : newStream s0 = .ok st) (hrun : writeAll st segs = .ok fin)
    (o : Int) (hcov : Blocks.covers fin.done o = true) :
    ∃ v, lastSupplied (history st.offset st.lastSeq segs) o = some v ∧
      fin.f.byteAt o = some v := by
  rw [newStream_ok] at hnew
  injection hnew with hnew
  obtain ⟨h1, _, h3⟩ := run_bytes segs st fin hrun o
  have hd : st.done = [] := by rw [← hnew]
  rw [hd] at h3
  rcases h3.mp hcov with h | h
  · simp [Blocks.covers] at h
  · obtain ⟨v, hv⟩ := Option.isSome_iff_exists.mp h
    exact ⟨v, hv, h1 v hv⟩

/-- C2 at `"hello"` then `"howdy"`, both at sequence number 2000: offset 1 is in
the written range `[0, 5)` and holds the `o` of `"howdy"`. -/
theorem C2_last_writer_wins_witness :
    newStream 2000 = .ok (stream.mk ⟨[], 0⟩ (-2000) 2000 [] []) ∧
    writeAll (stream.mk ⟨[], 0⟩ (-2000) 2000 [] [])
        [⟨2000, false, [104, 101, 108, 108, 111]⟩, ⟨2000, false, [104, 111, 119, 100, 121]⟩] =
      .ok (stream.mk ⟨[104, 111, 119, 100, 121], 5⟩ (-2000) 2000 [(0, 5)]
            [⟨[104, 101, 108, 108, 111], [104, 111, 119, 100, 121]⟩]) ∧
    Blocks.covers [(0, 5)] 1 = true ∧
    ∃ v, lastSupplied (history (-2000) 2000
          [⟨2000, false, [104, 101, 108, 108, 111]⟩, ⟨2000, false, [104, 111, 119, 100, 121]⟩]) 1
          = some v ∧
      File.byteAt ⟨[104, 111, 119, 100, 121], 5⟩ 1 = some v :=
  ⟨rfl, rfl, rfl,
    C2_last_writer_wins 2000
      [⟨2000, false, [104, 101, 108, 108, 111]⟩, ⟨2000, false, [104, 111, 119, 100, 121]⟩]
      (stream.mk ⟨[], 0⟩ (-2000) 2000 [] [])
      (stream.mk ⟨[104, 111, 119, 100, 121], 5⟩ (-2000) 2000 [(0, 5)]
            [⟨[104, 101, 108, 108, 111], [104, 111, 119, 100, 121]⟩])
      rfl rfl 1 rfl⟩

/-! ### Runs without overlap -/

/-- C3, as the code has it: on a stream made by `newStream`, a run of segments
that `write` processes without error and whose computed windows are pairwise
without a common offset (touching windows allowed) records no diff after any of
its writes, whatever the arrival order, and at the end every segment's window
reads back as that segment's payload. -/
theorem C3_disjoint_windows_no_diff (s0 : Nat) (segs : List TCP) (st fin : stream)
    (hnew : newStream s0 = .ok st) (hrun : writeAll st segs = .ok fin)
    (hap : (history st.offset st.lastSeq segs).Pairwise apart) :
    (∀ k : Nat, ∃ mid, writeAll st (segs.take k) = .ok mid ∧ mid.diffs = []) ∧
    (∀ w ∈ history st.offset st.lastSeq segs,
      fin.f.readWindow w.1 (w.1 + w.2.length) = .ok w.2) := by
  rw [newStream_ok] at hnew
  injection hnew with hnew
  have hd : st.done = [] := by rw [← hnew]
  have hdf : st.diffs = [] := by rw [← hnew]
  constructor
  · intro k
    obtain ⟨mid, hmid⟩ := writeAll_take segs st fin hrun k
    refine ⟨mid, hmid, ?_⟩
    rw [← hdf]
    apply run_no_diff (segs.take k) st mid hmid
    · rw [history_take]
      exact List.Pairwise.sublist (List.take_sublist _ _) hap
    · intro w _ o _ _
      rw [hd]
      rfl
  · intro w hw
    apply readWindow_of_bytes
    intro o h1 h2
    have hlt : (o - w.1).toNat < w.2.length := by omega
    have hs := lastSupplied_of_apart _ hap w hw o h1 h2
    rw [List.getElem?_eq_getElem hlt] at hs ⊢
    exact (run_bytes segs st fin hrun o).1 _ hs

/-- C3 at a stream seeded by its first segment, `[1, 2]` for `[0, 2)`, followed
by two segments that arrive out of order: `[4]` for `[3, 4)`, then `[3]` for
`[2, 3)`. -/
theorem C3_disjoint_windows_no_diff_witness :
    newStream 2000 = .ok (stream.mk ⟨[], 0⟩ (-2000) 2000 [] []) ∧
    writeAll (stream.mk ⟨[], 0⟩ (-2000) 2000 [] [])
        [⟨2000, false, [1, 2]⟩, ⟨2003, false, [4]⟩, ⟨2002, false, [3]⟩] =
      .ok (stream.mk ⟨[1, 2, 3, 4], 3⟩ (-2000) 2000 [(0, 4)] []) ∧
    (history (-2000) 2000
        [⟨2000, false, [1, 2]⟩, ⟨2003, false, [4]⟩, ⟨2002, false, [3]⟩]).Pairwise apart ∧
    ((∀ k : Nat, ∃ mid, writeAll (stream.mk ⟨[], 0⟩ (-2000) 2000 [] [])
          (([⟨2000, false, [1, 2]⟩, ⟨2003, false, [4]⟩, ⟨2002, false, [3]⟩] : List TCP).take k)
          = .ok mid ∧ mid.diffs = []) ∧
      (∀ w ∈ history (-2000) 2000
          [⟨2000, false, [1, 2]⟩, ⟨2003, false, [4]⟩, ⟨2002, false, [3]⟩],
        File.readWindow ⟨[1, 2, 3, 4], 3⟩ w.1 (w.1 + w.2.length) = .ok w.2)) :=
  ⟨rfl, rfl, by decide,
    C3_disjoint_windows_no_diff 2000
      [⟨2000, false, [1, 2]⟩, ⟨2003, false, [4]⟩, ⟨2002, false, [3]⟩]
      (stream.mk ⟨[], 0⟩ (-2000) 2000 [] [])
      (stream.mk ⟨[1, 2, 3, 4], 3⟩ (-2000) 2000 [(0, 4)] [])
      rfl rfl (by decide)⟩

/-- C3 fails as stated: on the stream that the segment `[3]` with sequence number
2002 seeds, the segment `[1, 2]` with sequence number 2000 arrives second. The
two windows, `[0, 1)` and `[-2, 0)`, have no common offset, yet `write` returns
`Seek(-2, 0): invalid argument` for the second segment, the run ends there, and
the window `[-2, 0)` cannot be read back from the file, which holds `[3]`
alone. -/
theorem C3_counterexample :
    ∃ st s1, newStream 2002 = .ok st ∧
      history st.offset st.lastSeq [⟨2002, false, [3]⟩, ⟨2000, false, [1, 2]⟩]
        = [(0, [3]), (-2, [1, 2])] ∧
      (history st.offset st.lastSeq
        [⟨2002, false, [3]⟩, ⟨2000, false, [1, 2]⟩]).Pairwise apart ∧
      st.write ⟨2002, false, [3]⟩ = .ok s1 ∧
      s1.write ⟨2000, false, [1, 2]⟩ = .error (Err.SeekErr (-2) Err.EINVAL) ∧
      writeAll st [⟨2002, false, [3]⟩, ⟨2000, false, [1, 2]⟩]
        = .error (Err.SeekErr (-2) Err.EINVAL) ∧
      s1.f.data = [3] ∧
      s1.f.readWindow (-2) 0 = .error Err.EINVAL :=
  ⟨_, _, rfl, rfl, by decide, rfl, rfl, rfl, rfl, rfl⟩

/-! ### Empty payloads -/

/-- C7: for every stream state and every segment with an empty payload, whatever
its SYN flag and sequence number, `write` returns no error and leaves the
written ranges, the diff log and the backing file as they were. -/
theorem C7_empty_payload_changes_nothing (s : stream) (seq : Nat) (syn : Bool) :
    ∃ s1, s.write ⟨seq, syn, []⟩ = .ok s1 ∧
      s1.done = s.done ∧ s1.diffs = s.diffs ∧ s1.f = s.f := by
  refine ⟨{ s with offset := s.bias ⟨seq, syn, []⟩ }, ?_, rfl, rfl, rfl⟩
  rw [write_spec]
  simp

/-! ### When a diff is recorded -/

theorem peek_ne_iff (data : List Byte) (a : Nat) (p : List Byte) :
    peek data a p.length ≠ p ↔ ∃ i, i < p.length ∧ some ((data[a + i]?).getD 0) ≠ p[i]? := by
  constructor
  · intro hne
    by_contra hcon
    apply hne
    apply List.ext_getElem?
    intro i
    by_cases hi : i < p.length
    · rw [peek_getElem? _ _ _ _ hi]
      by_contra hx
      exact hcon ⟨i, hi, hx⟩
    · rw [List.getElem?_eq_none (by rw [peek_length]; omega), List.getElem?_eq_none (by omega)]
  · rintro ⟨i, hi, hx⟩ heq
    apply hx
    rw [← peek_getElem? data a p.length i hi, heq]

/-- C8, as the code has it: a successful `write` appends a diff exactly when the
window `[a, b)` of the segment contains an offset of a previously written range
and some offset `o` of the window, inside a written range or not, reads back
from the file (the stored byte, zero where the file holds nothing) as a byte
other than the one the segment carries for `o`; the appended diff is the pair of
the bytes read and the payload. -/
theorem C8_diff_iff_window_reads_differently (s s1 : stream) (tcp : TCP)
    (h : s.write tcp = .ok s1) :
    (s1.diffs ≠ s.diffs ↔
      (∃ o : Int, (s.window tcp).1 ≤ o ∧ o < (s.window tcp).2 ∧ Blocks.covers s.done o = true) ∧
      (∃ o : Int, (s.window tcp).1 ≤ o ∧ o < (s.window tcp).2 ∧
        some (s.f.byteOr0 o) ≠ tcp.Payload[(o - (s.window tcp).1).toNat]?)) ∧
    (s1.diffs = s.diffs ∨
      s1.diffs = s.diffs ++
        [⟨peek s.f.data (s.window tcp).1.toNat tcp.Payload.length, tcp.Payload⟩]) := by
  simp only [stream.window]
  rcases write_ok_cases s s1 tcp h with ⟨hp, h1⟩ | ⟨hp, h0, _, _, _, _, _, hd⟩
  · subst h1
    refine ⟨?_, Or.inl rfl⟩
    simp only [ne_eq, not_true_eq_false, false_iff, hp, List.length_nil, Nat.cast_zero, add_zero]
    rintro ⟨⟨o, h1, h2, _⟩, _⟩
    omega
  · rw [← Blocks.Overlaps_iff]
    have hbytes : (∃ o : Int, s.bias tcp + tcp.Seq ≤ o ∧
          o < s.bias tcp + tcp.Seq + tcp.Payload.length ∧
          some (s.f.byteOr0 o) ≠ tcp.Payload[(o - (s.bias tcp + tcp.Seq)).toNat]?) ↔
        peek s.f.data (s.bias tcp + tcp.Seq).toNat tcp.Payload.length ≠ tcp.Payload := by
      rw [peek_ne_iff]
      constructor
      · rintro ⟨o, h1, h2, h3⟩
        refine ⟨(o - (s.bias tcp + tcp.Seq)).toNat, by omega, ?_⟩
        have ho : ¬ o < 0 := by omega
        have e : (s.bias tcp + tcp.Seq).toNat + (o - (s.bias tcp + tcp.Seq)).toNat = o.toNat := by
          omega
        rw [e]
        simpa [File.byteOr0, File.byteAt, ho] using h3
      · rintro ⟨i, hi, h3⟩
        refine ⟨s.bias tcp + tcp.Seq + i, by omega, by omega, ?_⟩
        have ho : ¬ (s.bias tcp + tcp.Seq + (i : Int) < 0) := by omega
        have e1 : (s.bias tcp + tcp.Seq + (i : Int)).toNat = (s.bias tcp + tcp.Seq).toNat + i := by
          omega
        have e2 : (s.bias tcp + tcp.Seq + (i : Int) - (s.bias tcp + tcp.Seq)).toNat = i := by
          omega
        rw [e2]
        simpa [File.byteOr0, File.byteAt, ho, e1] using h3
    rw [hbytes, hd]
    split
    · rename_i hc
      exact ⟨by simp [hc.1, hc.2], Or.inr rfl⟩
    · rename_i hc
      refine ⟨?_, Or.inl rfl⟩
      simp only [ne_eq, not_true_eq_false, false_iff]
      exact hc

/-- C8 at the segment `[1, 2, 3]` for `[0, 3)` arriving after `[1, 2]` was
written to `[0, 2)`. -/
theorem C8_diff_iff_window_reads_differently_witness :
    stream.write (stream.mk ⟨[1, 2], 2⟩ 0 0 [(0, 2)] []) ⟨0, false, [1, 2, 3]⟩ =
      .ok (stream.mk ⟨[1, 2, 3], 3⟩ 0 0 [(0, 3)] [⟨[1, 2, 0], [1, 2, 3]⟩]) ∧
    ((([⟨[1, 2, 0], [1, 2, 3]⟩] : diffs) ≠ [] ↔
      (∃ o : Int, (stream.window (stream.mk ⟨[1, 2], 2⟩ 0 0 [(0, 2)] []) ⟨0, false, [1, 2, 3]⟩).1 ≤ o ∧
        o < (stream.window (stream.mk ⟨[1, 2], 2⟩ 0 0 [(0, 2)] []) ⟨0, false, [1, 2, 3]⟩).2 ∧
        Blocks.covers [(0, 2)] o = true) ∧
      (∃ o : Int, (stream.window (stream.mk ⟨[1, 2], 2⟩ 0 0 [(0, 2)] []) ⟨0, false, [1, 2, 3]⟩).1 ≤ o ∧
        o < (stream.window (stream.mk ⟨[1, 2], 2⟩ 0 0 [(0, 2)] []) ⟨0, false, [1, 2, 3]⟩).2 ∧
        some (File.byteOr0 ⟨[1, 2], 2⟩ o) ≠
          ([1, 2, 3] : List Byte)[(o - (stream.window (stream.mk ⟨[1, 2], 2⟩ 0 0 [(0, 2)] [])
            ⟨0, false, [1, 2, 3]⟩).1).toNat]?)) ∧
    (([⟨[1, 2, 0], [1, 2, 3]⟩] : diffs) = [] ∨
      ([⟨[1, 2, 0], [1, 2, 3]⟩] : diffs) = [] ++
        [⟨peek [1, 2] (stream.window (stream.mk ⟨[1, 2], 2⟩ 0 0 [(0, 2)] [])
            ⟨0, false, [1, 2, 3]⟩).1.toNat 3, [1, 2, 3]⟩])) :=
  ⟨rfl, C8_diff_iff_window_reads_differently (stream.mk ⟨[1, 2], 2⟩ 0 0 [(0, 2)] [])
    (stream.mk ⟨[1, 2, 3], 3⟩ 0 0 [(0, 3)] [⟨[1, 2, 0], [1, 2, 3]⟩]) ⟨0, false, [1, 2, 3]⟩ rfl⟩

/-- C8 fails as stated: after `[1, 2]` has been written to `[0, 2)`, the segment
`[1, 2, 3]` for `[0, 3)` agrees with the file on both written offsets, and
`write` still appends the diff `([1, 2, 0], [1, 2, 3]`): no offset of the window
lies in a written range and holds a byte other than the segment's. -/
theorem C8_counterexample :
    ∃ st s1 s2, newStream 0 = .ok st ∧ st.write ⟨0, false, [1, 2]⟩ = .ok s1 ∧
      s1.write ⟨0, false, [1, 2, 3]⟩ = .ok s2 ∧
      s1.window ⟨0, false, [1, 2, 3]⟩ = (0, 3) ∧
      s2.diffs = s1.diffs ++ [⟨[1, 2, 0], [1, 2, 3]⟩] ∧
      ¬ ∃ o : Int, 0 ≤ o ∧ o < 3 ∧ Blocks.covers s1.done o = true ∧
          s1.f.byteAt o ≠ ([1, 2, 3] : List Byte)[o.toNat]? := by
  refine ⟨_, _, _, rfl, rfl, rfl, rfl, rfl, ?_⟩
  rintro ⟨o, h1, h2, h3, h4⟩
  have : o = 0 ∨ o = 1 ∨ o = 2 := by omega
  rcases this with h | h | h <;> subst h
  · exact h4 rfl
  · exact h4 rfl
  · exact absurd h3 (by decide)

/-! ### Errors -/

theorem wrap64_of_range (x : Int) (h1 : -9223372036854775808 ≤ x)
    (h2 : x < 9223372036854775808) : wrap64 x = x := by
  simp only [wrap64]
  omega

theorem wrap64_range (x : Int) :
    -9223372036854775808 ≤ wrap64 x ∧ wrap64 x < 9223372036854775808 := by
  simp only [wrap64]
  omega

theorem checkOn_ok (fs : Store) (s s2 : stream) (tcp : TCP) (a b : Int)
    (h : s.checkOn fs tcp a b = .ok s2) :
    s2.offset = s.offset ∧ s2.lastSeq = s.lastSeq ∧ s2.done = s.done := by
  simp only [stream.checkOn] at h
  split at h
  · split at h
    · cases h
    · split at h
      · cases h
      · split at h <;> (injection h with h; subst h; exact ⟨rfl, rfl, rfl⟩)
  · injection h with h
    subst h
    exact ⟨rfl, rfl, rfl⟩

theorem storeOn_ok (fs : Store) (s s2 : stream) (tcp : TCP) (a b : Int)
    (h : s.storeOn fs tcp a b = .ok s2) :
    s2.offset = s.offset ∧ s2.lastSeq = s.lastSeq := by
  simp only [stream.storeOn] at h
  split at h
  · cases h
  · split at h
    · cases h
    · injection h with h
      subst h
      exact ⟨rfl, rfl⟩

theorem writeOn_offset (fs : Store) (s s1 : stream) (tcp : TCP)
    (h : s.writeOn fs tcp = .ok s1) :
    s1.offset = s.bias64 tcp ∧ s1.lastSeq = s.lastSeq := by
  simp only [stream.writeOn] at h
  split at h
  · split at h
    · cases h
    · rename_i s2 hc
      obtain ⟨c1, c2, _⟩ := checkOn_ok fs _ s2 tcp _ _ hc
      obtain ⟨d1, d2⟩ := storeOn_ok fs s2 s1 tcp _ _ h
      exact ⟨d1.trans c1, d2.trans c2⟩
  · injection h with h
    subst h
    exact ⟨rfl, rfl⟩

theorem checkOn_error_iff (fs : Store) (s : stream) (tcp : TCP) (a b : Int) :
    (∃ e, s.checkOn fs tcp a b = .error e) ↔
      Blocks.Overlaps s.done a b = true ∧
        ((∃ e, fs.Seek s.f a = .error e) ∨
          ∃ f1 e, fs.Seek s.f a = .ok f1 ∧ fs.Read f1 (wrap64 (b - a)).toNat = .error e) := by
  simp only [stream.checkOn]
  by_cases hov : Blocks.Overlaps s.done a b = true
  · simp only [hov, if_true, true_and]
    cases hs : fs.Seek s.f a with
    | error e => simp
    | ok f1 =>
      cases hr : fs.Read f1 (wrap64 (b - a)).toNat with
      | error e => simp [hr]
      | ok r =>
        obtain ⟨previous, f2⟩ := r
        by_cases hd : previous = tcp.Payload <;> simp [hr, hd]
  · simp [hov]

theorem storeOn_error_iff (fs : Store) (s : stream) (tcp : TCP) (a b : Int) :
    (∃ e, s.storeOn fs tcp a b = .error e) ↔
      ((∃ e, fs.Seek s.f a = .error e) ∨
        ∃ f3 e, fs.Seek s.f a = .ok f3 ∧ fs.Write f3 tcp.Payload = .error e) := by
  simp only [stream.storeOn]
  cases hs : fs.Seek s.f a with
  | error e => simp
  | ok f1 =>
    cases hw : fs.Write f1 tcp.Payload with
    | error e => simp [hw]
    | ok f2 => simp [hw]

theorem writeOn_error_iff (fs : Store) (s : stream) (tcp : TCP) :
    (∃ e, s.writeOn fs tcp = .error e) ↔
      (s.window64 tcp).1 < (s.window64 tcp).2 ∧
      ((Blocks.Overlaps s.done (s.window64 tcp).1 (s.window64 tcp).2 = true ∧
          ((∃ e, fs.Seek s.f (s.window64 tcp).1 = .error e) ∨
            ∃ f1 e, fs.Seek s.f (s.window64 tcp).1 = .ok f1 ∧
              fs.Read f1 (wrap64 ((s.window64 tcp).2 - (s.window64 tcp).1)).toNat
                = .error e)) ∨
        ∃ s2, stream.checkOn fs { s with offset := s.bias64 tcp } tcp
              (s.window64 tcp).1 (s.window64 tcp).2 = .ok s2 ∧
          ((∃ e, fs.Seek s2.f (s.window64 tcp).1 = .error e) ∨
            ∃ f3 e, fs.Seek s2.f (s.window64 tcp).1 = .ok f3 ∧
              fs.Write f3 tcp.Payload = .error e)) := by
  have hc := checkOn_error_iff fs { s with offset := s.bias64 tcp } tcp
    (s.window64 tcp).1 (s.window64 tcp).2
  simp only at hc
  rw [← hc]
  simp only [stream.writeOn]
  by_cases hb : (s.window64 tcp).2 > (s.window64 tcp).1
  · have hb2 : (s.window64 tcp).1 < (s.window64 tcp).2 := hb
    simp only [hb, if_true, hb2, true_and]
    cases hch : stream.checkOn fs { s with offset := s.bias64 tcp } tcp
        (s.window64 tcp).1 (s.window64 tcp).2 with
    | error e => simp
    | ok s2 =>
      simp only [false_or, exists_false, Except.ok.injEq, exists_eq_left', reduceCtorEq]
      exact storeOn_error_iff fs s2 tcp _ _
  · have hb2 : ¬ (s.window64 tcp).1 < (s.window64 tcp).2 := hb
    simp [hb, hb2]

theorem writeOn_empty (fs : Store) (s : stream) (seq : Nat) (syn : Bool) :
    s.writeOn fs ⟨seq, syn, []⟩ = .ok { s with offset := s.bias64 ⟨seq, syn, []⟩ } := by
  have hr := wrap64_range (s.bias64 ⟨seq, syn, []⟩ + (seq : Int))
  have hb : (s.window64 ⟨seq, syn, []⟩).2 = (s.window64 ⟨seq, syn, []⟩).1 := by
    simp only [stream.window64, List.length_nil, Nat.cast_zero, add_zero]
    exact wrap64_of_range _ hr.1 hr.2
  simp only [stream.writeOn, hb, gt_iff_lt, lt_self_iff_false, if_false]

theorem writeOn_negative (fs : Store)
    (hneg : ∀ (f : File) (a : Int), a < 0 → ∃ e, fs.Seek f a = .error e)
    (s : stream) (tcp : TCP) (ha : (s.window64 tcp).1 < 0)
    (hb : (s.window64 tcp).1 < (s.window64 tcp).2) :
    ∃ e, s.writeOn fs tcp = .error e := by
  rw [writeOn_error_iff]
  refine ⟨hb, ?_⟩
  by_cases hov : Blocks.Overlaps s.done (s.window64 tcp).1 (s.window64 tcp).2 = true
  · exact Or.inl ⟨hov, Or.inl (hneg _ _ ha)⟩
  · refine Or.inr ⟨{ s with offset := s.bias64 tcp }, ?_, Or.inl (hneg _ _ ha)⟩
    simp [stream.checkOn, hov]

theorem bias64_no_bump (s : stream) (tcp : TCP)
    (hnb : ¬ (s.lastSeq > MaxUint32 - MaxUint32 / 4 ∧ tcp.Seq < MaxUint32 / 4))
    (h1 : -4611686018427387904 ≤ s.offset) (h2 : s.offset ≤ 0) :
    s.offset - 1 ≤ s.bias64 tcp ∧ s.bias64 tcp ≤ s.offset := by
  simp only [stream.bias64]
  rw [if_neg hnb]
  split
  · rw [wrap64_of_range _ (by omega) (by omega)]
    omega
  · omega

theorem writeAllOn_cons (fs : Store) (s fin : stream) (t : TCP) (ts : List TCP)
    (h : writeAllOn fs s (t :: ts) = .ok fin) :
    ∃ s1, s.writeOn fs t = .ok s1 ∧ writeAllOn fs s1 ts = .ok fin := by
  simp only [writeAllOn] at h
  split at h
  · cases h
  · rename_i s1 h1
    exact ⟨s1, h1, h⟩

/-- A run in which no segment takes the wrap bump only lowers `offset`, by at
most one per segment. -/
theorem run_offset_no_bump (fs : Store) (segs : List TCP) : ∀ (s fin : stream),
    writeAllOn fs s segs = .ok fin →
    (∀ t ∈ segs, ¬ (s.lastSeq > MaxUint32 - MaxUint32 / 4 ∧ t.Seq < MaxUint32 / 4)) →
    -4611686018427387904 ≤ s.offset - segs.length → s.offset ≤ 0 →
    fin.lastSeq = s.lastSeq ∧ s.offset - segs.length ≤ fin.offset ∧ fin.offset ≤ s.offset := by
  induction segs with
  | nil =>
    intro s fin h _ _ _
    simp only [writeAllOn] at h
    injection h with h
    subst h
    simp
  | cons t ts ih =>
    intro s fin h hnb h1 h2
    obtain ⟨s1, hw, hrest⟩ := writeAllOn_cons fs s fin t ts h
    obtain ⟨ho, hl⟩ := writeOn_offset fs s s1 t hw
    simp only [List.length_cons, Nat.cast_add, Nat.cast_one] at h1 ⊢
    obtain ⟨b1, b2⟩ := bias64_no_bump s t (hnb t (List.mem_cons_self _ _)) (by omega) h2
    have hnb1 : ∀ u ∈ ts,
        ¬ (s1.lastSeq > MaxUint32 - MaxUint32 / 4 ∧ u.Seq < MaxUint32 / 4) := by
      intro u hu
      rw [hl]
      exact hnb u (List.mem_cons_of_mem _ hu)
    obtain ⟨i1, i2, i3⟩ := ih s1 fin hrest hnb1 (by omega) (by omega)
    exact ⟨i1.trans hl, by omega, by omega⟩

/-- On a stream that `newStream s0` made, after a run without wrap bump, a
segment below `s0` that takes no wrap bump has a non-empty window that starts at
a negative absolute offset. -/
theorem window64_below_seed (fs : Store) (s0 : Nat) (f0 : File) (segs : List TCP)
    (st fin : stream) (tcp : TCP)
    (hnew : newStreamOn (.ok f0) s0 = .ok st) (hrun : writeAllOn fs st segs = .ok fin)
    (hn : segs.length < 2147483648) (hs0 : s0 < 4294967296) (hseq : tcp.Seq < s0)
    (hp : tcp.Payload ≠ []) (hpl : tcp.Payload.length < 2147483648)
    (hnb : ∀ t ∈ tcp :: segs, ¬ (s0 > MaxUint32 - MaxUint32 / 4 ∧ t.Seq < MaxUint32 / 4)) :
    (fin.window64 tcp).1 < 0 ∧ (fin.window64 tcp).1 < (fin.window64 tcp).2 := by
  simp only [newStreamOn] at hnew
  injection hnew with hnew
  have hoff : st.offset = -(s0 : Int) := by
    rw [← hnew]
    exact wrap64_of_range _ (by omega) (by omega)
  have hls : st.lastSeq = s0 := by rw [← hnew]
  have hnb1 : ∀ t ∈ segs,
      ¬ (st.lastSeq > MaxUint32 - MaxUint32 / 4 ∧ t.Seq < MaxUint32 / 4) := by
    intro t ht
    rw [hls]
    exact hnb t (List.mem_cons_of_mem _ ht)
  obtain ⟨r1, r2, r3⟩ := run_offset_no_bump fs segs st fin hrun hnb1 (by omega) (by omega)
  have hnb2 : ¬ (fin.lastSeq > MaxUint32 - MaxUint32 / 4 ∧ tcp.Seq < MaxUint32 / 4) := by
    rw [r1, hls]
    exact hnb tcp (List.mem_cons_self _ _)
  obtain ⟨b1, b2⟩ := bias64_no_bump fin tcp hnb2 (by omega) (by omega)
  have hlen : 0 < tcp.Payload.length := List.length_pos.mpr hp
  have ha : wrap64 (fin.bias64 tcp + tcp.Seq) = fin.bias64 tcp + tcp.Seq :=
    wrap64_of_range _ (by omega) (by omega)
  simp only [stream.window64, ha]
  rw [wrap64_of_range _ (by omega) (by omega)]
  omega

/-- The two embeddings of `write` agree: where no `int64` computation overflows
and the window ends within the limit of the file system, `write` over `osFile`
succeeds exactly when `write` over the unlimited file does, with the same
result. -/
theorem writeOn_osFile_agrees (limit : Nat) (s s1 : stream) (tcp : TCP)
    (ho1 : -2305843009213693952 ≤ s.offset) (ho2 : s.offset ≤ 2305843009213693952)
    (hseq : tcp.Seq < 4294967296) (hlen : tcp.Payload.length < 2305843009213693952)
    (hlim : (s.window tcp).2 ≤ limit) :
    s.writeOn (osFile limit) tcp = .ok s1 ↔ s.write tcp = .ok s1 := by
  have hS : wrap64 (s.offset - 1) = s.offset - 1 := wrap64_of_range _ (by omega) (by omega)
  have hB1 : wrap64 (s.offset - 1 + 4294967295) = s.offset - 1 + 4294967295 :=
    wrap64_of_range _ (by omega) (by omega)
  have hB2 : wrap64 (s.offset + 4294967295) = s.offset + 4294967295 :=
    wrap64_of_range _ (by omega) (by omega)
  have hbias : s.bias64 tcp = s.bias tcp := by
    simp only [stream.bias64, stream.bias, MaxUint32, hS, Nat.cast_ofNat]
    by_cases hsyn : tcp.SYN = true
    · simp [hsyn, hB1]
    · simp [hsyn, hB2]
  have hbr : s.offset - 1 ≤ s.bias tcp ∧ s.bias tcp ≤ s.offset + 4294967295 := by
    simp only [stream.bias, MaxUint32, Nat.cast_ofNat]
    split <;> split <;> omega
  have hw : s.window64 tcp = s.window tcp := by
    simp only [stream.window64, stream.window, hbias]
    rw [wrap64_of_range (s.bias tcp + tcp.Seq) (by omega) (by omega)]
    rw [wrap64_of_range _ (by omega) (by omega)]
  simp only [stream.window] at hlim
  by_cases hp : tcp.Payload = []
  · rw [write_spec]
    have := writeOn_empty (osFile limit) s tcp.Seq tcp.SYN
    have e : tcp = ⟨tcp.Seq, tcp.SYN, []⟩ := by
      cases tcp
      simp only at hp
      simp [hp]
    rw [← e] at this
    rw [this, hbias]
    simp [hp]
  · have hl : 0 < tcp.Payload.length := List.length_pos.mpr hp
    have hl2 : tcp.Payload.length ≠ 0 := by omega
    have hwr : wrap64 (tcp.Payload.length : Int) = tcp.Payload.length :=
      wrap64_of_range _ (by omega) (by omega)
    have hgt : s.bias tcp + tcp.Seq < s.bias tcp + tcp.Seq + tcp.Payload.length := by omega
    rw [write_spec]
    simp only [stream.writeOn, hw, stream.window, hbias, gt_iff_lt, hgt, if_true, hp, if_false]
    by_cases ha : s.bias tcp + tcp.Seq < 0
    · by_cases hov : Blocks.Overlaps s.done (s.bias tcp + tcp.Seq)
          (s.bias tcp + tcp.Seq + tcp.Payload.length) = true
      · simp [stream.checkOn, osFile, ha, hov]
      · simp [stream.checkOn, stream.storeOn, osFile, ha, hov]
    · have hla : ¬ ((limit : Int) < s.bias tcp + tcp.Seq) := by omega
      have hlw : ¬ (limit < (s.bias tcp + tcp.Seq).toNat + tcp.Payload.length) := by omega
      by_cases hov : Blocks.Overlaps s.done (s.bias tcp + tcp.Seq)
          (s.bias tcp + tcp.Seq + tcp.Payload.length) = true
      · by_cases he : s.f.data.length ≤ (s.bias tcp + tcp.Seq).toNat
        · simp [stream.checkOn, osFile, ha, hla, hov, hwr, hl2, he]
        · by_cases hd : peek s.f.data (s.bias tcp + tcp.Seq).toNat tcp.Payload.length
              = tcp.Payload
          · simp [stream.checkOn, stream.storeOn, osFile, ha, hla, hlw, hov, hwr, hl2, he, hd,
              hp]
          · simp [stream.checkOn, stream.storeOn, osFile, ha, hla, hlw, hov, hwr, hl2, he, hd,
              hp]
      · simp [stream.checkOn, stream.storeOn, osFile, ha, hla, hlw, hov, hp]

/-- The failures that the unlimited file of `stream.write` leaves out, at
`osFile 4`: a seek beyond the limit (line 90), a write beyond the limit (line 94),
a window start that wraps to `-2 ^ 63` in `int64`, and a negative window that
overlaps written data, whose seek fails at line 79 and is returned as it is. -/
theorem writeOn_osFile_failures :
    stream.writeOn (osFile 4) (stream.mk ⟨[], 0⟩ (-10) 10 [] []) ⟨15, false, [1, 2, 3]⟩
      = .error (WriteError.seek 5 Fault.EINVAL) ∧
    stream.writeOn (osFile 4) (stream.mk ⟨[], 0⟩ (-10) 10 [] []) ⟨12, false, [1, 2, 3]⟩
      = .error (WriteError.write [1, 2, 3] Fault.EFBIG) ∧
    stream.writeOn (osFile 4) (stream.mk ⟨[], 0⟩ 9223372036854775807 10 [] []) ⟨1, false, [1]⟩
      = .error (WriteError.seek (-9223372036854775808) Fault.EINVAL) ∧
    stream.writeOn (osFile 4) (stream.mk ⟨[7], 1⟩ (-10) 10 [(0, 1)] [])
        ⟨5, false, [1, 2, 3, 4, 5, 6]⟩
      = .error (WriteError.raw Fault.EINVAL) :=
  ⟨rfl, rfl, rfl, rfl⟩

/-- C9, as the code has it, for every backing file `fs` that refuses a negative
seek target (as `os.File` does): `write` returns an error exactly when the window
`[a, b)` is not empty and one of the file operations it issues fails, which are
the seek and the read of the overlap check (lines 79-84) and the seek and the
write that store the payload (lines 90-96). A segment with an empty payload is
never an error. A window that starts at a negative absolute offset is not handled
apart: `write` seeks to it, so a non-empty window with `a < 0` always makes
`write` return an error, in every state of the stream. In particular, on a stream
made by `newStream s0` (`s0` a `uint32`), after any run of fewer than `2 ^ 31`
segments that `write` processed without error, a segment with a sequence number
below `s0` and a non-empty payload of fewer than `2 ^ 31` bytes has a window that
starts at a negative absolute offset and `write` returns an error for it, provided
no segment of the run and not this one takes the wrap bump of lines 68-70. -/
theorem C9_error_iff_file_operation_fails (fs : Store)
    (hneg : ∀ (f : File) (a : Int), a < 0 → ∃ e, fs.Seek f a = .error e) :
    (∀ (s : stream) (tcp : TCP),
      ((∃ e, s.writeOn fs tcp = .error e) ↔
        (s.window64 tcp).1 < (s.window64 tcp).2 ∧
        ((Blocks.Overlaps s.done (s.window64 tcp).1 (s.window64 tcp).2 = true ∧
            ((∃ e, Store.Seek fs s.f (s.window64 tcp).1 = .error e) ∨
              ∃ f1 e, Store.Seek fs s.f (s.window64 tcp).1 = .ok f1 ∧
                Store.Read fs f1 (wrap64 ((s.window64 tcp).2 - (s.window64 tcp).1)).toNat
                  = .error e)) ∨
          ∃ s2, stream.checkOn fs { s with offset := s.bias64 tcp } tcp
                (s.window64 tcp).1 (s.window64 tcp).2 = .ok s2 ∧
            ((∃ e, Store.Seek fs s2.f (s.window64 tcp).1 = .error e) ∨
              ∃ f3 e, Store.Seek fs s2.f (s.window64 tcp).1 = .ok f3 ∧
                Store.Write fs f3 tcp.Payload = .error e)))) ∧
    (∀ (s : stream) (seq : Nat) (syn : Bool), ∃ s1, s.writeOn fs ⟨seq, syn, []⟩ = .ok s1) ∧
    (∀ (s : stream) (tcp : TCP),
      (s.window64 tcp).1 < 0 → (s.window64 tcp).1 < (s.window64 tcp).2 →
      ∃ e, s.writeOn fs tcp = .error e) ∧
    (∀ (s0 : Nat) (f0 : File) (segs : List TCP) (st fin : stream) (tcp : TCP),
      newStreamOn (.ok f0) s0 = .ok st → writeAllOn fs st segs = .ok fin →
      segs.length < 2147483648 → s0 < 4294967296 → tcp.Seq < s0 →
      tcp.Payload ≠ [] → tcp.Payload.length < 2147483648 →
      (∀ t ∈ tcp :: segs, ¬ (s0 > MaxUint32 - MaxUint32 / 4 ∧ t.Seq < MaxUint32 / 4)) →
      (fin.window64 tcp).1 < 0 ∧ ∃ e, fin.writeOn fs tcp = .error e) := by
  refine ⟨fun s tcp => writeOn_error_iff fs s tcp, fun s seq syn => ⟨_, writeOn_empty fs s seq syn⟩,
    fun s tcp ha hb => writeOn_negative fs hneg s tcp ha hb, ?_⟩
  intro s0 f0 segs st fin tcp hnew hrun hn hs0 hseq hp hpl hnb
  obtain ⟨ha, hb⟩ := window64_below_seed fs s0 f0 segs st fin tcp hnew hrun hn hs0 hseq hp hpl hnb
  exact ⟨ha, writeOn_negative fs hneg fin tcp ha hb⟩

/-- C9 at `osFile 4`, a file on a file system whose largest offset is 4. -/
theorem C9_error_iff_file_operation_fails_witness :
    (∀ (f : File) (a : Int), a < 0 → ∃ e, (osFile 4).Seek f a = .error e) ∧
    ((∀ (s : stream) (tcp : TCP),
      ((∃ e, s.writeOn (osFile 4) tcp = .error e) ↔
        (s.window64 tcp).1 < (s.window64 tcp).2 ∧
        ((Blocks.Overlaps s.done (s.window64 tcp).1 (s.window64 tcp).2 = true ∧
            ((∃ e, Store.Seek (osFile 4) s.f (s.window64 tcp).1 = .error e) ∨
              ∃ f1 e, Store.Seek (osFile 4) s.f (s.window64 tcp).1 = .ok f1 ∧
                Store.Read (osFile 4) f1 (wrap64 ((s.window64 tcp).2 - (s.window64 tcp).1)).toNat
                  = .error e)) ∨
          ∃ s2, stream.checkOn (osFile 4) { s with offset := s.bias64 tcp } tcp
                (s.window64 tcp).1 (s.window64 tcp).2 = .ok s2 ∧
            ((∃ e, Store.Seek (osFile 4) s2.f (s.window64 tcp).1 = .error e) ∨
              ∃ f3 e, Store.Seek (osFile 4) s2.f (s.window64 tcp).1 = .ok f3 ∧
                Store.Write (osFile 4) f3 tcp.Payload = .error e)))) ∧
    (∀ (s : stream) (seq : Nat) (syn : Bool), ∃ s1, s.writeOn (osFile 4) ⟨seq, syn, []⟩ = .ok s1) ∧
    (∀ (s : stream) (tcp : TCP),
      (s.window64 tcp).1 < 0 → (s.window64 tcp).1 < (s.window64 tcp).2 →
      ∃ e, s.writeOn (osFile 4) tcp = .error e) ∧
    (∀ (s0 : Nat) (f0 : File) (segs : List TCP) (st fin : stream) (tcp : TCP),
      newStreamOn (.ok f0) s0 = .ok st → writeAllOn (osFile 4) st segs = .ok fin →
      segs.length < 2147483648 → s0 < 4294967296 → tcp.Seq < s0 →
      tcp.Payload ≠ [] → tcp.Payload.length < 2147483648 →
      (∀ t ∈ tcp :: segs, ¬ (s0 > MaxUint32 - MaxUint32 / 4 ∧ t.Seq < MaxUint32 / 4)) →
      (fin.window64 tcp).1 < 0 ∧ ∃ e, fin.writeOn (osFile 4) tcp = .error e)) :=
  ⟨fun _ _ h => ⟨Fault.EINVAL, by simp [osFile, h]⟩,
    C9_error_iff_file_operation_fails (osFile 4)
      (fun _ _ h => ⟨Fault.EINVAL, by simp [osFile, h]⟩)⟩

/-- C9 fails as stated: on the stream made by `newStream 10`, the non-SYN segment
with sequence number 5 and the payload `[1]` has the window `[-5, -4)`, and
`write` returns the error `Seek(-5, 0): invalid argument`, on the file without
limits and on a file with any limit. -/
theorem C9_counterexample :
    (∃ st, newStream 10 = .ok st ∧ st.window ⟨5, false, [1]⟩ = (-5, -4) ∧
      st.write ⟨5, false, [1]⟩ = .error (Err.SeekErr (-5) Err.EINVAL)) ∧
    ∀ limit : Nat, ∃ st, newStreamOn (.ok ⟨[], 0⟩) 10 = .ok st ∧
      st.window64 ⟨5, false, [1]⟩ = (-5, -4) ∧
      st.writeOn (osFile limit) ⟨5, false, [1]⟩
        = .error (WriteError.seek (-5) Fault.EINVAL) := by
  refine ⟨⟨_, rfl, rfl, rfl⟩, fun limit => ⟨_, rfl, rfl, ?_⟩⟩
  have hw : stream.window64 (stream.mk ⟨[], 0⟩ (wrap64 (-10)) 10 [] [])
      ⟨5, false, [1]⟩ = (-5, -4) := rfl
  simp [stream.writeOn, hw, stream.checkOn, stream.storeOn, Blocks.Overlaps, osFile]

/-! ### Sequence numbers around the wrap -/

theorem write_keeps_lastSeq (s s1 : stream) (tcp : TCP) (h : s.write tcp = .ok s1) :
    s1.lastSeq = s.lastSeq :=
  (write_offset s s1 tcp h).2

/-- C4 at `s0 = 2 ^ 32 - 1`: after the SYN segment with sequence number
`4294967295` and no payload, the data segment with the next wire sequence number,
0, gets the window `[-1, 1)` instead of `[0, 2)`, because the wrap bump of line 69
adds `math.MaxUint32 = 2 ^ 32 - 1`; the seek to -1 fails and `write` returns
`Seek(-1, 0): invalid argument`. -/
theorem C4_syn_at_max_seq_misplaces_data :
    ∃ st s1, newStream 4294967295 = .ok st ∧ st.write ⟨4294967295, true, []⟩ = .ok s1 ∧
      (4294967295 + 1) % 2 ^ 32 = 0 ∧
      s1.window ⟨0, false, [65, 66]⟩ = (-1, 1) ∧
      s1.write ⟨0, false, [65, 66]⟩ = .error (Err.SeekErr (-1) Err.EINVAL) :=
  ⟨_, _, rfl, rfl, rfl, rfl, rfl⟩

/-- The placement C4 describes holds for every `s0` below `2 ^ 32 - 1`, and with
it the scenario of the specification (SYN at 1000, `"AB"` at 1001). -/
theorem syn_then_data_below_max (s0 : Nat) (p : List Byte) (hs : s0 < 4294967295)
    (hp : p ≠ []) :
    ∃ st s1 s2, newStream s0 = .ok st ∧ st.write ⟨s0, true, []⟩ = .ok s1 ∧
      s1.window ⟨(s0 + 1) % 2 ^ 32, false, p⟩ = (0, (p.length : Int)) ∧
      s1.write ⟨(s0 + 1) % 2 ^ 32, false, p⟩ = .ok s2 ∧ s2.diffs = [] ∧ s2.f.data = p := by
  have hm : (s0 + 1) % 2 ^ 32 = s0 + 1 := Nat.mod_eq_of_lt (by omega)
  rw [hm]
  have hb : stream.bias (stream.mk ⟨[], 0⟩ (-(s0 : Int) - 1) s0 [] []) ⟨s0 + 1, false, p⟩
      = -(s0 : Int) - 1 := by
    simp only [stream.bias, MaxUint32]
    split
    · omega
    · simp
  have hb0 : stream.bias (stream.mk ⟨[], 0⟩ (-(s0 : Int)) s0 [] []) ⟨s0, true, []⟩
      = -(s0 : Int) - 1 := by
    simp only [stream.bias, MaxUint32]
    split
    · omega
    · simp
  have hw1 : stream.write (stream.mk ⟨[], 0⟩ (-(s0 : Int)) s0 [] []) ⟨s0, true, []⟩ =
      .ok (stream.mk ⟨[], 0⟩ (-(s0 : Int) - 1) s0 [] []) := by
    rw [write_spec]
    simp [hb0]
  have ha : -(s0 : Int) - 1 + ((s0 + 1 : Nat) : Int) = 0 := by push_cast; omega
  have hw2 : stream.write (stream.mk ⟨[], 0⟩ (-(s0 : Int) - 1) s0 [] []) ⟨s0 + 1, false, p⟩ =
      .ok (stream.mk ⟨p, p.length⟩ (-(s0 : Int) - 1) s0 (Blocks.Add [] 0 (p.length : Int)) []) := by
    rw [write_spec]
    simp only [hb, ha]
    simp [hp, Blocks.Overlaps, patch]
  refine ⟨_, _, _, newStream_ok s0, hw1, ?_, hw2, rfl, rfl⟩
  simp only [stream.window, hb, ha]
  simp

/-- C5 at `s0 = 2 ^ 32 - 1` and `s1 = 0`: the first segment gets the absolute
offset 0 and so does the second, which is not strictly after it (the one-byte
payloads then collide and a diff is recorded). At `s1 = 1073741823`, which is
below `2 ^ 32 / 4` but not below `math.MaxUint32 / 4`, no bump is applied and the
second offset is negative. -/
theorem C5_offset_after_wrap_not_greater :
    ∃ st s1 s2, newStream 4294967295 = .ok st ∧
      (st.window ⟨4294967295, false, [65]⟩).1 = 0 ∧
      st.write ⟨4294967295, false, [65]⟩ = .ok s1 ∧
      (s1.window ⟨0, false, [66]⟩).1 = 0 ∧
      s1.write ⟨0, false, [66]⟩ = .ok s2 ∧
      s2.diffs = [⟨[65], [66]⟩] ∧
      (s1.window ⟨1073741823, false, [66]⟩).1 = -3221225472 :=
  ⟨_, _, _, rfl, rfl, rfl, rfl, rfl, rfl, rfl⟩

/-- C6 at `s0 = 4000000000`: after the segment at `s0` and one segment in the
bottom quarter, `offset` is `-s0 + 2 ^ 32 - 1`, not `-s0 + 2 ^ 32`; a second
segment in the bottom quarter bumps it again, because `lastSeq` still holds
`s0`. -/
theorem C6_bump_repeats_and_is_one_short :
    ∃ st s1 s2 s3, newStream 4000000000 = .ok st ∧
      st.write ⟨4000000000, false, []⟩ = .ok s1 ∧
      s1.write ⟨5, false, []⟩ = .ok s2 ∧
      s2.write ⟨6, false, []⟩ = .ok s3 ∧
      s2.offset = -4000000000 + 4294967295 ∧
      s3.offset = -4000000000 + 4294967295 + 4294967295 ∧
      (-4000000000 + 2 ^ 32 : Int) = -4000000000 + 4294967295 + 1 :=
  ⟨_, _, _, _, rfl, rfl, rfl, rfl, rfl, rfl, rfl⟩

/-- C10 at `newStream 4000000000` followed by segments with the sequence numbers
4000000000, 100 and 200: after the segment at 100 `lastSeq` is still 4000000000,
and the segment at 200, which follows a segment outside the top quarter, is
bumped all the same. -/
theorem C10_lastSeq_is_never_updated :
    ∃ st s1 s2 s3, newStream 4000000000 = .ok st ∧
      st.write ⟨4000000000, false, []⟩ = .ok s1 ∧
      s1.write ⟨100, false, []⟩ = .ok s2 ∧
      s2.write ⟨200, false, []⟩ = .ok s3 ∧
      s2.lastSeq = 4000000000 ∧
      s3.lastSeq = 4000000000 ∧
      s3.offset = s2.offset + 4294967295 :=
  ⟨_, _, _, _, rfl, rfl, rfl, rfl, rfl, rfl, rfl⟩

end Qisniff
